import Mathlib

/-!
# Verification of the 7ds MIDI-to-MML transcoder

A shallow embedding of `7ds_midi.py`, the MIDI → MML (macro music language)
transcoder, together with proofs about its behaviour.

The embedding follows the Python source closely:

* Python `int` values (times, durations, velocities, octaves) become `ℤ`;
  tick counts from the MIDI file become `ℕ`.
* Python `float` arithmetic on `ticks / tpb * 4` and `velocity * (16/128)` is
  modelled over `ℚ` (the quantities involved are exactly representable as
  binary floats for realistic inputs), and Python 3's built-in `round`
  (round-half-to-even) is modelled by `roundHalfEven`.
* Exceptions (`assert`, `KeyError`/`IndexError` from `durations[msg.note].pop()`)
  are modelled with `Except String`, the error message recording the condition.
* `OrderedDict` is an association list in insertion order; `reversed(d)`
  iterates keys in reverse insertion order, which is the `revKeys` list.
* Python's `Line(list)` subclass becomes a structure holding its entries
  explicitly; `Note` and `Rest` become the two constructors of `Entry`.
-/

namespace SevenDS

/-- Python 3 `round`: round half to even (banker's rounding), on exact rationals. -/
def roundHalfEven (q : ℚ) : ℤ :=
  let f := ⌊q⌋
  let r := q - f
  if r < 1/2 then f
  else if 1/2 < r then f + 1
  else if f % 2 = 0 then f else f + 1

/-- `Note._PITCHES`: pitch names indexed by `pitch_number mod 12`, grouped
as the source groups them (one group per character of the game). -/
def PITCHES : List String :=
  ["C", "C#"] ++ ["D", "D#"] ++ ["E"] ++ ["F", "F#"] ++ ["G", "G#"] ++ ["A", "A#"] ++ ["B"]

/-- Association-list lookup in insertion order, modelling `OrderedDict.get` /
`d[key]` on the duration table. -/
def tableGet (a : Int) : List (Int × String) → Option String
  | [] => none
  | (k, v) :: es => if k = a then some v else tableGet a es

/-- The ordered duration table `d` built in `Note._get_length_str`:
canonical sixteenth-note counts and their MML length tokens. -/
def lengthTable : List (Int × String) :=
  [(1, "16"), (2, "8"), (3, "8."), (4, ""), (6, "4."), (8, "2"),
   (12, "2."), (16, "1"), (24, "1.")]

/-- The keys of `lengthTable` in the order produced by `reversed(d)`. -/
def revKeys : List Int := [24, 16, 12, 8, 6, 4, 3, 2, 1]

/-- `Note._get_length_str(duration)`.

* `assert duration >= 1` becomes the leading error case.
* `result = d.get(duration)` followed by `if not result:` — note that Python
  treats the empty-string token of key 4 the same as a missing key here, so
  both `none` and `some ""` take the decomposition branch.
* The decomposition scans `reversed(d)` for the largest key strictly below
  `duration` (`revKeys.find?`); `low = None` (no such key) would make `d[low]`
  raise, modelled as an error; the recursive call's exceptions propagate. -/
def getLengthStr (pitch : String) (duration : Int) : Except String String :=
  if duration < 1 then
    .error ("Error: Note duration was less than a sixteenth note. (" ++ toString duration ++ ")")
  else
    match tableGet duration lengthTable with
    | some tok =>
        if tok = "" then
          match hfind : revKeys.find? (fun k => decide (k < duration)) with
          | none => .error "TypeError: NoneType key"
          | some low =>
              match tableGet low lengthTable with
              | none => .error "KeyError"
              | some lowTok =>
                  match getLengthStr pitch (duration - low) with
                  | .error e => .error e
                  | .ok rest => .ok (lowTok ++ "&" ++ pitch ++ rest)
        else .ok tok
    | none =>
        match hfind : revKeys.find? (fun k => decide (k < duration)) with
        | none => .error "TypeError: NoneType key"
        | some low =>
            match tableGet low lengthTable with
            | none => .error "KeyError"
            | some lowTok =>
                match getLengthStr pitch (duration - low) with
                | .error e => .error e
                | .ok rest => .ok (lowTok ++ "&" ++ pitch ++ rest)
termination_by duration.toNat
decreasing_by
  all_goals
    have hmem := List.mem_of_find?_eq_some hfind
    have hlt : low < duration := by
      have := List.find?_some hfind
      simpa using this
    have h1 : (1:Int) ≤ low := by
      simp [revKeys] at hmem
      omega
    omega

/-- The table keys of the token segments `Note._get_length_str` emits, in
emission order: the same recursion as `getLengthStr`, collecting the key
consumed at each step instead of the rendered token. -/
def lengthKeys (duration : Int) : List Int :=
  if duration < 1 then []
  else
    match tableGet duration lengthTable with
    | some tok =>
        if tok = "" then
          match hfind : revKeys.find? (fun k => decide (k < duration)) with
          | none => []
          | some low => low :: lengthKeys (duration - low)
        else [duration]
    | none =>
        match hfind : revKeys.find? (fun k => decide (k < duration)) with
        | none => []
        | some low => low :: lengthKeys (duration - low)
termination_by duration.toNat
decreasing_by
  all_goals
    have hmem := List.mem_of_find?_eq_some hfind
    have hlt : low < duration := by
      have := List.find?_some hfind
      simpa using this
    have h1 : (1:Int) ≤ low := by
      simp [revKeys] at hmem
      omega
    omega

/-- Rendering of a key sequence as `Note._get_length_str` renders it: the
tokens of the keys joined by `&` followed by the pitch symbol. -/
def renderKeys (pitch : String) : List Int → String
  | [] => ""
  | [k] => (tableGet k lengthTable).getD ""
  | k :: k2 :: rest =>
      (tableGet k lengthTable).getD "" ++ "&" ++ pitch ++ renderKeys pitch (k2 :: rest)

/-- A `Note`: semantic fields computed by `Note.__init__` from the MIDI
message plus its (mutable, in sixteenths) start and duration. -/
structure Note where
  note_value : ℕ
  pitch : String
  octave : ℤ
  start : ℤ
  duration : ℤ
  velocity : ℤ
deriving DecidableEq

/-- The MIDI message types the encoder distinguishes. -/
inductive MsgType where
  | note_on
  | note_off
  | other
deriving DecidableEq

/-- A mido message as the track encoder consumes it: a type, a pitch number,
a velocity, and a delta time in ticks since the previous message. -/
structure Msg where
  type : MsgType
  note : ℕ
  velocity : ℕ
  time : ℕ
deriving DecidableEq

/-- `Note.__init__(msg, start, duration, disable_vel)`. -/
def Note.make (msg : Msg) (start duration : ℤ) (disable_vel : Bool) : Note :=
  { note_value := msg.note
    pitch := PITCHES.getD (msg.note % 12) ""
    octave := (msg.note : ℤ) / 12 - 1
    start := start
    duration := duration
    velocity := if disable_vel then 12 else roundHalfEven ((msg.velocity : ℚ) * (16/128)) }

/-- `Note.encode()`: zero (or negative) durations yield the empty token;
otherwise optional velocity prefix, octave, pitch, then the length string. -/
def Note.encode (n : Note) : Except String String :=
  if n.duration ≤ 0 then .ok ""
  else
    match getLengthStr n.pitch n.duration with
    | .error e => .error e
    | .ok lenStr =>
        .ok ((if n.velocity ≠ 12 then "V" ++ toString n.velocity else "")
          ++ "O" ++ toString n.octave ++ n.pitch ++ lenStr)

/-- `Note.end`. -/
def Note.endTime (n : Note) : ℤ := n.start + n.duration

/-- An item stored in a `Line`: either a `Note` or a `Rest(start, duration)`
(whose pitch is the fixed sentinel `"R"`). -/
inductive Entry where
  | note (n : Note)
  | rest (start duration : ℤ)
deriving DecidableEq

/-- Start time of a line entry. -/
def Entry.start : Entry → ℤ
  | .note n => n.start
  | .rest s _ => s

/-- Duration of a line entry. -/
def Entry.duration : Entry → ℤ
  | .note n => n.duration
  | .rest _ d => d

/-- `end` of a line entry (`start + duration`). -/
def Entry.endTime (e : Entry) : ℤ := e.start + e.duration

/-- Whether the entry is a `Note`. -/
def Entry.isNote : Entry → Bool
  | .note _ => true
  | .rest _ _ => false

/-- Whether the entry is a `Rest`. -/
def Entry.isRest : Entry → Bool
  | .note _ => false
  | .rest _ _ => true

/-- Encoding of a line entry: `Note.encode` for notes, and `Rest.encode`
(`'R' + self._get_length_str(self.duration)`, with no zero-duration guard)
for rests. -/
def Entry.encode : Entry → Except String String
  | .note n => n.encode
  | .rest _ d =>
      match getLengthStr "R" d with
      | .error e => .error e
      | .ok lenStr => .ok ("R" ++ lenStr)

/-- A `Line`: its entries (the Python object doubles as a list), its start,
and its accumulated duration. -/
structure Line where
  start : ℤ
  duration : ℤ
  entries : List Entry
deriving DecidableEq

/-- `Line.end` (`start + duration`). -/
def Line.lineEnd (l : Line) : ℤ := l.start + l.duration

/-- `Line.__init__(start)`: a line beginning after time 0 is seeded with a
rest covering `[0, start)`. -/
def Line.new (start : ℤ) : Line :=
  { start := start
    duration := 0
    entries := if start > 0 then [.rest 0 start] else [] }

/-- `Line.append(note)`: a gap between the line's current end and the new
item's start is filled with a synthesized rest first. -/
def Line.push (l : Line) (e : Entry) : Line :=
  if e.start > l.lineEnd then
    { l with
        entries := l.entries ++ [.rest l.lineEnd (e.start - l.lineEnd), e]
        duration := l.duration + (e.start - l.lineEnd) + e.duration }
  else
    { l with
        entries := l.entries ++ [e]
        duration := l.duration + e.duration }

/-- Encoding of each entry in order, the first exception aborting the run
(the `''.join(note.encode() for note in self)` generator). -/
def encodeEntries : List Entry → Except String (List String)
  | [] => .ok []
  | e :: es =>
      match e.encode with
      | .error err => .error err
      | .ok s =>
          match encodeEntries es with
          | .error err => .error err
          | .ok ss => .ok (s :: ss)

/-- `Line.encode()`: concatenation of all entry encodings. -/
def Line.encode (l : Line) : Except String String :=
  match encodeEntries l.entries with
  | .error e => .error e
  | .ok strs => .ok (String.join strs)

/-- `Track._tick_to_sixteenth(ticks)`: `round((ticks / tpb) * 4)`, where
`tpb = ticks_per_beat * speed_mult`. -/
def tickToSixteenth (tpb : ℚ) (ticks : ℕ) : ℤ :=
  roundHalfEven ((ticks : ℚ) / tpb * 4)

/-- The index scanned by `Track._get_available_line`'s `for line in
reversed(lines)` loop: the most recently created line whose end is at or
before `noteStart`, if any. -/
def findAvail (lines : List Line) (noteStart : ℤ) : Option ℕ :=
  match lines with
  | [] => none
  | l :: ls =>
      match findAvail ls noteStart with
      | some i => some (i + 1)
      | none => if l.lineEnd ≤ noteStart then some 0 else none

/-- In-place update of the i-th line, modelling mutation of the Python list
element returned by `_get_available_line`. -/
def modifyIdx (lines : List Line) (i : ℕ) (f : Line → Line) : List Line :=
  match lines, i with
  | [], _ => []
  | l :: ls, 0 => f l :: ls
  | l :: ls, Nat.succ j => l :: modifyIdx ls j f

/-- `self._get_available_line(lines, note).append(note)`: append the note to
the most recent available line, or create a new line (seeded at the note's
start) and append it there. -/
def addToLines (lines : List Line) (n : Note) : List Line :=
  match findAvail lines n.start with
  | some i => modifyIdx lines i (fun l => l.push (.note n))
  | none => lines ++ [(Line.new n.start).push (.note n)]

/-- `durations[msg.note].append(note)`, creating the key (at the end of the
insertion order) when absent. The most recent note is at the head of its
pitch's list, mirroring Python's append/pop at the tail. -/
def pushNote (durs : List (ℕ × List Note)) (p : ℕ) (n : Note) : List (ℕ × List Note) :=
  match durs with
  | [] => [(p, [n])]
  | (k, ns) :: rest => if k = p then (k, n :: ns) :: rest else (k, ns) :: pushNote rest p n

/-- `durations[msg.note].pop()`: `none` models both `KeyError` (pitch never
seen) and `IndexError` (its stack is empty). -/
def popNote (durs : List (ℕ × List Note)) (p : ℕ) : Option (Note × List (ℕ × List Note)) :=
  match durs with
  | [] => none
  | (k, ns) :: rest =>
      if k = p then
        match ns with
        | [] => none
        | n :: ns2 => some (n, (k, ns2) :: rest)
      else
        match popNote rest p with
        | none => none
        | some (n, rest2) => some (n, (k, ns) :: rest2)

/-- The `for k in durations: for note in durations[k]: note.duration += δ`
loop: every in-progress note's duration grows by the quantized delta. -/
def bumpAll (delta : ℤ) (durs : List (ℕ × List Note)) : List (ℕ × List Note) :=
  durs.map (fun kv => (kv.1, kv.2.map (fun n => { n with duration := n.duration + delta })))

/-- The loop state of `Track.encode`: the running time cursor, the per-pitch
stacks of in-progress notes (insertion-ordered), and the allocated lines. -/
structure EncState where
  time : ℤ
  durations : List (ℕ × List Note)
  lines : List Line
deriving DecidableEq

/-- One iteration of the `for msg in self.track` loop of `Track.encode`. -/
def trackStep (tpb : ℚ) (disable_vel : Bool) (s : EncState) (msg : Msg) :
    Except String EncState :=
  let delta := tickToSixteenth tpb msg.time
  let time := s.time + delta
  let durs := bumpAll delta s.durations
  if msg.type = .note_on ∨ msg.type = .note_off then
    if msg.type = .note_on ∧ msg.velocity > 0 then
      .ok ⟨time, pushNote durs msg.note (Note.make msg time 0 disable_vel), s.lines⟩
    else
      match popNote durs msg.note with
      | none => .error "IndexError: pop from empty list"
      | some (n, durs2) => .ok ⟨time, durs2, addToLines s.lines n⟩
  else
    .ok ⟨time, durs, s.lines⟩

/-- The whole message loop of `Track.encode`, from a given state. -/
def runTrack (tpb : ℚ) (disable_vel : Bool) : EncState → List Msg → Except String EncState
  | s, [] => .ok s
  | s, msg :: rest =>
      match trackStep tpb disable_vel s msg with
      | .error e => .error e
      | .ok s2 => runTrack tpb disable_vel s2 rest

/-- The state `Track.encode` starts from. -/
def initState : EncState := ⟨0, [], []⟩

/-- Encoding of each line in order (`line.encode() for line in lines`). -/
def encodeLines : List Line → Except String (List String)
  | [] => .ok []
  | l :: ls =>
      match l.encode with
      | .error err => .error err
      | .ok s =>
          match encodeLines ls with
          | .error err => .error err
          | .ok ss => .ok (s :: ss)

/-- `Track.encode()`: run the loop, then join the encoded lines with commas. -/
def Track.encode (tpb : ℚ) (disable_vel : Bool) (msgs : List Msg) : Except String String :=
  match runTrack tpb disable_vel initState msgs with
  | .error e => .error e
  | .ok s =>
      match encodeLines s.lines with
      | .error e => .error e
      | .ok strs => .ok (String.intercalate "," strs)

/-- `Midi.encode()`: header, tempo tag when the tempo is not 120, the encoded
track, and the terminator.  `tpb` passed to the track is
`ticks_per_beat * speed_mult` as in `Track.__init__`. -/
def Midi.encode (tempo : ℤ) (ticks_per_beat : ℕ) (speed_mult : ℚ) (disable_vel : Bool)
    (msgs : List Msg) : Except String String :=
  match Track.encode ((ticks_per_beat : ℚ) * speed_mult) disable_vel msgs with
  | .error e => .error e
  | .ok body =>
      .ok ("7ML@" ++ (if tempo ≠ 120 then "T" ++ toString tempo else "") ++ body ++ ";")

/-! ## Specification-side predicates -/

/-- `chainFromTo t es u`: the entries `es` are contiguous, the first starting
at `t`, each next one starting where the previous ended, ending at `u`. -/
def chainFromTo : ℤ → List Entry → ℤ → Prop
  | t, [], u => t = u
  | t, e :: es, u => e.start = t ∧ chainFromTo e.endTime es u

/-- The structural invariant of a `Line`: its entries chain from time 0 to
the line's `end`, and every entry has nonnegative duration. -/
def LineInv (l : Line) : Prop :=
  chainFromTo 0 l.entries l.lineEnd ∧ ∀ e ∈ l.entries, 0 ≤ e.duration

/-- All in-progress notes have nonnegative start and duration. -/
def NotesOK (durs : List (ℕ × List Note)) : Prop :=
  ∀ kv ∈ durs, ∀ n ∈ kv.2, 0 ≤ n.start ∧ 0 ≤ n.duration

/-- The loop invariant of `Track.encode` (for a nonnegative time scale). -/
def StateInv (s : EncState) : Prop :=
  0 ≤ s.time ∧ NotesOK s.durations ∧ ∀ l ∈ s.lines, LineInv l

/-- Every rest entry of the line has duration ≥ 1. -/
def RestsOK (l : Line) : Prop :=
  ∀ e ∈ l.entries, e.isRest = true → 1 ≤ e.duration

/-- An event the encoder treats as note-off: a `note_off` message, or a
`note_on` with velocity 0. -/
def isOffMsg (m : Msg) : Prop :=
  (m.type = .note_on ∨ m.type = .note_off) ∧ ¬(m.type = .note_on ∧ m.velocity > 0)

/-- An event the encoder treats as note-on: a `note_on` with velocity > 0. -/
def isOnMsg (m : Msg) : Prop :=
  m.type = .note_on ∧ m.velocity > 0

instance (m : Msg) : Decidable (isOffMsg m) := by unfold isOffMsg; infer_instance

instance (m : Msg) : Decidable (isOnMsg m) := by unfold isOnMsg; infer_instance

/-- Number of `Note` (non-rest) entries across all lines. -/
def noteCount (lines : List Line) : ℕ :=
  (lines.map (fun l => (l.entries.filter Entry.isNote).length)).sum

/-- Total number of in-progress notes across all per-pitch stacks. -/
def stackCount (durs : List (ℕ × List Note)) : ℕ :=
  (durs.map (fun kv => kv.2.length)).sum

/-- The stack of in-progress notes for a pitch (empty when the pitch was
never seen). -/
def stackOf (s : EncState) (p : ℕ) : List Note :=
  ((s.durations.find? (fun kv => decide (kv.1 = p))).map Prod.snd).getD []

/-- The per-pitch stack read off a raw durations list. -/
def stackOfD (durs : List (ℕ × List Note)) (p : ℕ) : List Note :=
  ((durs.find? (fun kv => decide (kv.1 = p))).map Prod.snd).getD []

/-- Placeholder line used as the default of index-based list access. -/
def dummyLine : Line := ⟨0, 0, []⟩


/-! ## Lemmas about the duration decomposition -/

/-- Exact-match step: a key whose token is nonempty is returned as-is. -/
theorem gls_exact (pitch : String) (d : Int) (tok : String) (hd : ¬ d < 1)
    (hlook : tableGet d lengthTable = some tok) (htok : ¬ tok = "") :
    getLengthStr pitch d = .ok tok := by
  rw [getLengthStr, if_neg hd]
  split
  · rename_i tok' heq
    rw [hlook] at heq
    cases heq
    rw [if_neg htok]
  · rename_i heq
    rw [hlook] at heq
    cases heq

/-- Greedy decomposition step, taken when the lookup misses or hits the
empty (quarter-note) token. -/
theorem gls_decomp (pitch : String) (d low : Int) (lowTok : String) (hd : ¬ d < 1)
    (hlook : tableGet d lengthTable = none ∨ tableGet d lengthTable = some "")
    (hfind : revKeys.find? (fun k => decide (k < d)) = some low)
    (hlowTok : tableGet low lengthTable = some lowTok) :
    getLengthStr pitch d =
      (getLengthStr pitch (d - low)).map (fun rest => lowTok ++ "&" ++ pitch ++ rest) := by
  rw [getLengthStr, if_neg hd]
  split
  · rename_i tok' heq
    rcases hlook with hlook | hlook
    · rw [hlook] at heq
      cases heq
    · rw [hlook] at heq
      cases heq
      rw [if_pos rfl]
      split
      · rename_i heq2
        rw [hfind] at heq2
        cases heq2
      · rename_i low' heq2
        rw [hfind] at heq2
        cases heq2
        split
        · rename_i heq3
          rw [hlowTok] at heq3
          cases heq3
        · rename_i lowTok' heq3
          rw [hlowTok] at heq3
          cases heq3
          cases getLengthStr pitch (d - low) <;> rfl
  · rename_i heq
    rcases hlook with hlook | hlook
    · split
      · rename_i heq2
        rw [hfind] at heq2
        cases heq2
      · rename_i low' heq2
        rw [hfind] at heq2
        cases heq2
        split
        · rename_i heq3
          rw [hlowTok] at heq3
          cases heq3
        · rename_i lowTok' heq3
          rw [hlowTok] at heq3
          cases heq3
          cases getLengthStr pitch (d - low) <;> rfl
    · rw [hlook] at heq
      cases heq

/-- Exact-match step for the key-collecting shadow of the recursion. -/
theorem lk_exact (d : Int) (tok : String) (hd : ¬ d < 1)
    (hlook : tableGet d lengthTable = some tok) (htok : ¬ tok = "") :
    lengthKeys d = [d] := by
  rw [lengthKeys, if_neg hd]
  split
  · rename_i tok' heq
    rw [hlook] at heq
    cases heq
    rw [if_neg htok]
  · rename_i heq
    rw [hlook] at heq
    cases heq

/-- Decomposition step for the key-collecting shadow of the recursion. -/
theorem lk_decomp (d low : Int) (hd : ¬ d < 1)
    (hlook : tableGet d lengthTable = none ∨ tableGet d lengthTable = some "")
    (hfind : revKeys.find? (fun k => decide (k < d)) = some low) :
    lengthKeys d = low :: lengthKeys (d - low) := by
  rw [lengthKeys, if_neg hd]
  split
  · rename_i tok' heq
    rcases hlook with hlook | hlook
    · rw [hlook] at heq
      cases heq
    · rw [hlook] at heq
      cases heq
      rw [if_pos rfl]
      split
      · rename_i heq2
        rw [hfind] at heq2
        cases heq2
      · rename_i low' heq2
        rw [hfind] at heq2
        cases heq2
        rfl
  · rename_i heq
    rcases hlook with hlook | hlook
    · split
      · rename_i heq2
        rw [hfind] at heq2
        cases heq2
      · rename_i low' heq2
        rw [hfind] at heq2
        cases heq2
        rfl
    · rw [hlook] at heq
      cases heq

/-- Every call with `d ≥ 1` falls into exactly one of the two step shapes. -/
theorem gls_branches (d : Int) (hd : 1 ≤ d) :
    (∃ tok, tableGet d lengthTable = some tok ∧ ¬ tok = "") ∨
    ((tableGet d lengthTable = none ∨ tableGet d lengthTable = some "") ∧
      ∃ low lowTok, revKeys.find? (fun k => decide (k < d)) = some low ∧
        1 ≤ low ∧ low < d ∧ tableGet low lengthTable = some lowTok ∧ 1 ≤ d - low) := by
  have hfind : 2 ≤ d → ∃ low lowTok,
      revKeys.find? (fun k => decide (k < d)) = some low ∧
        1 ≤ low ∧ low < d ∧ tableGet low lengthTable = some lowTok ∧ 1 ≤ d - low := by
    intro h2
    have hsome : (revKeys.find? (fun k => decide (k < d))).isSome := by
      rw [List.find?_isSome]
      exact ⟨1, by simp [revKeys], by simp; omega⟩
    obtain ⟨low, hlow⟩ := Option.isSome_iff_exists.mp hsome
    have hmem := List.mem_of_find?_eq_some hlow
    have hlt : low < d := by
      have := List.find?_some hlow
      simpa using this
    have h1 : (1:Int) ≤ low := by
      simp [revKeys] at hmem
      omega
    have hlook : ∃ lowTok, tableGet low lengthTable = some lowTok := by
      simp only [revKeys, List.mem_cons, List.not_mem_nil, or_false] at hmem
      rcases hmem with h | h | h | h | h | h | h | h | h <;> subst h <;> exact ⟨_, rfl⟩
    obtain ⟨lowTok, hlowTok⟩ := hlook
    exact ⟨low, lowTok, hlow, h1, hlt, hlowTok, by omega⟩
  by_cases h1 : d = 1
  · subst h1
    exact Or.inl ⟨"16", rfl, by simp⟩
  · rcases heq : tableGet d lengthTable with _ | tok
    · exact Or.inr ⟨Or.inl rfl, hfind (by omega)⟩
    · by_cases htok : tok = ""
      · subst htok
        have hd4 : d = 4 := by
          simp [lengthTable, tableGet] at heq
          split_ifs at heq <;> simp_all
        subst hd4
        exact Or.inr ⟨Or.inr rfl, hfind (by omega)⟩
      · exact Or.inl ⟨tok, rfl, htok⟩

/-- The emitted keys sum to the requested duration. -/
theorem lengthKeys_sum (d : Int) (hd : 1 ≤ d) : (lengthKeys d).sum = d := by
  rcases gls_branches d hd with ⟨tok, hlook, htok⟩ |
    ⟨hlook, low, lowTok, hfind, h1, hlt, hlowTok, hrem⟩
  · rw [lk_exact d tok (by omega) hlook htok]
    simp
  · rw [lk_decomp d low (by omega) hlook hfind]
    rw [List.sum_cons, lengthKeys_sum (d - low) hrem]
    omega
termination_by d.toNat
decreasing_by omega

/-- For `d ≥ 1` no error case is reached and the rendered string is exactly
the rendering of the emitted key sequence. -/
theorem gls_renders (pitch : String) (d : Int) (hd : 1 ≤ d) :
    getLengthStr pitch d = .ok (renderKeys pitch (lengthKeys d)) := by
  rcases gls_branches d hd with ⟨tok, hlook, htok⟩ |
    ⟨hlook, low, lowTok, hfind, h1, hlt, hlowTok, hrem⟩
  · rw [gls_exact pitch d tok (by omega) hlook htok, lk_exact d tok (by omega) hlook htok]
    simp [renderKeys, hlook]
  · rw [gls_decomp pitch d low lowTok (by omega) hlook hfind hlowTok,
      lk_decomp d low (by omega) hlook hfind,
      gls_renders pitch (d - low) hrem]
    have hne : lengthKeys (d - low) ≠ [] := by
      intro hnil
      have hsum := lengthKeys_sum (d - low) hrem
      rw [hnil] at hsum
      simp at hsum
      omega
    cases hkeys : lengthKeys (d - low) with
    | nil => exact absurd hkeys hne
    | cons k2 krest => simp [renderKeys, hlowTok, Except.map]
termination_by d.toNat
decreasing_by omega

/-- Useful corollary: the decomposition succeeds for every `d ≥ 1`. -/
theorem gls_ok (pitch : String) (d : Int) (hd : 1 ≤ d) :
    ∃ s, getLengthStr pitch d = .ok s :=
  ⟨renderKeys pitch (lengthKeys d), gls_renders pitch d hd⟩

/-- Concrete evaluation: duration 1. -/
theorem gls_one (pitch : String) : getLengthStr pitch 1 = .ok "16" :=
  gls_exact pitch 1 "16" (by decide) (by decide) (by decide)

/-- Concrete evaluation: duration 2. -/
theorem gls_two (pitch : String) : getLengthStr pitch 2 = .ok "8" :=
  gls_exact pitch 2 "8" (by decide) (by decide) (by decide)

/-- Concrete evaluation: duration 4 takes the decomposition branch because
the quarter-note token is the empty string, which `if not result:` treats
as a failed lookup. -/
theorem gls_four (pitch : String) :
    getLengthStr pitch 4 = .ok ("8." ++ "&" ++ pitch ++ "16") := by
  rw [gls_decomp pitch 4 3 "8." (by decide) (Or.inr (by decide)) (by decide) (by decide)]
  norm_num
  rw [gls_exact pitch 1 "16" (by decide) (by decide) (by decide)]
  rfl

/-! ## Arithmetic lemmas for the quantizer and velocity scaling -/

/-- `roundHalfEven` of a nonnegative rational is nonnegative. -/
theorem roundHalfEven_nonneg (q : ℚ) (hq : 0 ≤ q) : 0 ≤ roundHalfEven q := by
  have hf : (0:ℤ) ≤ ⌊q⌋ := Int.floor_nonneg.mpr hq
  rw [roundHalfEven]
  split_ifs <;> omega

/-- The quantizer returns a nonnegative count for a positive time scale. -/
theorem tts_nonneg (tpb : ℚ) (htpb : 0 < tpb) (ticks : ℕ) :
    0 ≤ tickToSixteenth tpb ticks := by
  rw [tickToSixteenth]
  apply roundHalfEven_nonneg
  positivity

/-- A zero tick delta quantizes to zero for any time scale. -/
theorem tts_zero (tpb : ℚ) : tickToSixteenth tpb 0 = 0 := by
  rw [tickToSixteenth, roundHalfEven]
  norm_num

/-- One full beat at 480 ticks per beat is 4 sixteenths. -/
theorem tts_beat : tickToSixteenth 480 480 = 4 := by
  rw [tickToSixteenth, roundHalfEven]
  norm_num

/-- MIDI velocity 100 scales to bucket 12: `100 * 16/128 = 12.5` and Python's
round-half-to-even rounds it down to the even value 12. -/
theorem vel100 : roundHalfEven ((100 : ℚ) * (16/128)) = 12 := by
  rw [roundHalfEven]
  norm_num


/-! ## Lemmas about lines and the line allocator -/

theorem chainFromTo_append (xs ys : List Entry) (t v u : ℤ)
    (hx : chainFromTo t xs v) (hy : chainFromTo v ys u) :
    chainFromTo t (xs ++ ys) u := by
  induction xs generalizing t with
  | nil =>
      rw [chainFromTo] at hx
      subst hx
      simpa using hy
  | cons e es ih =>
      obtain ⟨h1, h2⟩ := hx
      exact ⟨h1, ih e.endTime h2⟩

/-- A freshly created line satisfies the invariant (for nonnegative starts). -/
theorem Line.new_inv (s : ℤ) (hs : 0 ≤ s) : LineInv (Line.new s) := by
  rw [LineInv, Line.new]
  split_ifs with hpos
  · refine ⟨⟨rfl, ?_⟩, ?_⟩
    · simp [chainFromTo, Entry.endTime, Entry.start, Entry.duration, Line.lineEnd]
    · intro e he
      simp at he
      subst he
      simpa [Entry.duration] using le_of_lt hpos
  · have hz : s = 0 := by omega
    subst hz
    exact ⟨by simp [chainFromTo, Line.lineEnd], by simp⟩

/-- Appending an entry that starts at or after the line's end preserves the
invariant. -/
theorem Line.push_inv (l : Line) (e : Entry) (hl : LineInv l)
    (hstart : l.lineEnd ≤ e.start) (hdur : 0 ≤ e.duration) :
    LineInv (l.push e) := by
  obtain ⟨hchain, hdurs⟩ := hl
  have hLE : l.lineEnd = l.start + l.duration := rfl
  rw [LineInv, Line.push]
  split_ifs with hgap
  · constructor
    · refine chainFromTo_append _ _ _ l.lineEnd _ hchain ?_
      refine ⟨rfl, ?_, ?_⟩
      · simp [Entry.endTime, Entry.start, Entry.duration]
      · rw [chainFromTo]
        simp only [Entry.endTime, Line.lineEnd]
        ring
    · intro x hx
      simp only [List.mem_append, List.mem_cons, List.not_mem_nil, or_false] at hx
      rcases hx with hx | hx | hx
      · exact hdurs x hx
      · subst hx
        simp only [Entry.duration]
        omega
      · subst hx
        exact hdur
  · constructor
    · refine chainFromTo_append _ _ _ l.lineEnd _ hchain ?_
      refine ⟨by omega, ?_⟩
      rw [chainFromTo]
      simp only [Entry.endTime, Line.lineEnd]
      have hse : e.start = l.start + l.duration := by omega
      omega
    · intro x hx
      simp only [List.mem_append, List.mem_cons, List.not_mem_nil, or_false] at hx
      rcases hx with hx | hx
      · exact hdurs x hx
      · subst hx
        exact hdur

/-- What a successful `findAvail` guarantees: a valid index whose line has
ended by the note's start. -/
theorem findAvail_spec (lines : List Line) (t : ℤ) (i : ℕ)
    (h : findAvail lines t = some i) :
    i < lines.length ∧ (lines.getD i dummyLine).lineEnd ≤ t := by
  induction lines generalizing i with
  | nil => simp [findAvail] at h
  | cons l ls ih =>
      rw [findAvail] at h
      rcases hrec : findAvail ls t with _ | j
      · rw [hrec] at h
        simp only at h
        split_ifs at h with hle
        cases h
        simpa using hle
      · rw [hrec] at h
        simp only at h
        cases h
        obtain ⟨hj, hle⟩ := ih j hrec
        constructor
        · simpa using Nat.succ_lt_succ hj
        · simpa using hle

/-- Membership after an in-place update: either an untouched line, or the
image of the updated index. -/
theorem mem_modifyIdx (lines : List Line) (i : ℕ) (f : Line → Line) (l2 : Line)
    (h : l2 ∈ modifyIdx lines i f) :
    l2 ∈ lines ∨ (i < lines.length ∧ l2 = f (lines.getD i dummyLine)) := by
  induction lines generalizing i with
  | nil => simp [modifyIdx] at h
  | cons l ls ih =>
      cases i with
      | zero =>
          simp only [modifyIdx] at h
          rcases List.mem_cons.mp h with h | h
          · right
            exact ⟨by simp, by simpa using h⟩
          · left
            exact List.mem_cons_of_mem _ h
      | succ j =>
          simp only [modifyIdx] at h
          rcases List.mem_cons.mp h with h | h
          · left
            simp [h]
          · rcases ih j h with h | ⟨hj, hl⟩
            · left
              exact List.mem_cons_of_mem _ h
            · right
              refine ⟨by simpa using Nat.succ_lt_succ hj, ?_⟩
              simpa using hl

/-- Routing a completed note through the allocator preserves the line
invariant on every line. -/
theorem addToLines_inv (lines : List Line) (n : Note)
    (hl : ∀ l ∈ lines, LineInv l) (hs : 0 ≤ n.start) (hd : 0 ≤ n.duration) :
    ∀ l ∈ addToLines lines n, LineInv l := by
  intro l hmem
  rw [addToLines] at hmem
  rcases hfa : findAvail lines n.start with _ | i <;> rw [hfa] at hmem <;> simp only at hmem
  · rcases List.mem_append.mp hmem with hmem | hmem
    · exact hl l hmem
    · simp only [List.mem_cons, List.not_mem_nil, or_false] at hmem
      subst hmem
      apply Line.push_inv
      · exact Line.new_inv n.start hs
      · simp [Line.new, Line.lineEnd, Entry.start]
      · simpa [Entry.duration] using hd
  · rcases mem_modifyIdx lines i _ l hmem with hmem | ⟨hi, hl2⟩
    · exact hl l hmem
    · subst hl2
      obtain ⟨hi2, hle⟩ := findAvail_spec lines n.start i hfa
      apply Line.push_inv
      · refine hl _ ?_
        rw [List.getD_eq_get lines dummyLine hi]
        exact List.get_mem lines i hi
      · simpa [Entry.start] using hle
      · simpa [Entry.duration] using hd


/-! ## Lemmas about the per-pitch stacks and the track state -/

theorem bumpAll_ok (delta : ℤ) (hdelta : 0 ≤ delta) (durs : List (ℕ × List Note))
    (h : NotesOK durs) : NotesOK (bumpAll delta durs) := by
  intro kv hkv n hn
  rw [bumpAll] at hkv
  obtain ⟨kv0, hkv0, rfl⟩ := List.mem_map.mp hkv
  obtain ⟨n0, hn0, rfl⟩ := List.mem_map.mp hn
  have := h kv0 hkv0 n0 hn0
  refine ⟨this.1, ?_⟩
  show 0 ≤ n0.duration + delta
  omega

theorem pushNote_ok (durs : List (ℕ × List Note)) (p : ℕ) (n : Note)
    (h : NotesOK durs) (hs : 0 ≤ n.start) (hd : 0 ≤ n.duration) :
    NotesOK (pushNote durs p n) := by
  induction durs with
  | nil =>
      intro kv hkv m hm
      simp only [pushNote, List.mem_cons, List.not_mem_nil, or_false] at hkv
      subst hkv
      simp only [List.mem_cons, List.not_mem_nil, or_false] at hm
      subst hm
      exact ⟨hs, hd⟩
  | cons kv0 rest ih =>
      obtain ⟨k0, ns0⟩ := kv0
      intro kv hkv m hm
      rw [pushNote] at hkv
      split_ifs at hkv with hk
      · rcases List.mem_cons.mp hkv with hkv | hkv
        · subst hkv
          rcases List.mem_cons.mp hm with hm | hm
          · subst hm
            exact ⟨hs, hd⟩
          · exact h (k0, ns0) (List.mem_cons_self _ _) m hm
        · exact h kv (List.mem_cons_of_mem _ hkv) m hm
      · rcases List.mem_cons.mp hkv with hkv | hkv
        · subst hkv
          exact h (k0, ns0) (List.mem_cons_self _ _) m hm
        · exact ih (fun kv2 hkv2 => h kv2 (List.mem_cons_of_mem _ hkv2)) kv hkv m hm

theorem popNote_ok (durs : List (ℕ × List Note)) (p : ℕ) (n : Note)
    (durs2 : List (ℕ × List Note)) (h : NotesOK durs)
    (hpop : popNote durs p = some (n, durs2)) :
    (0 ≤ n.start ∧ 0 ≤ n.duration) ∧ NotesOK durs2 := by
  induction durs generalizing durs2 with
  | nil => simp [popNote] at hpop
  | cons kv0 rest ih =>
      obtain ⟨k0, ns0⟩ := kv0
      simp only [popNote] at hpop
      split_ifs at hpop with hk
      · cases ns0 with
        | nil => cases hpop
        | cons n0 ns2 =>
            simp only [Option.some.injEq, Prod.mk.injEq] at hpop
            obtain ⟨hn, hd2⟩ := hpop
            subst hn
            subst hd2
            constructor
            · exact h (k0, n0 :: ns2) (List.mem_cons_self _ _) n0 (List.mem_cons_self _ _)
            · intro kv hkv m hm
              rcases List.mem_cons.mp hkv with hkv | hkv
              · subst hkv
                exact h (k0, n0 :: ns2) (List.mem_cons_self _ _) m (List.mem_cons_of_mem _ hm)
              · exact h kv (List.mem_cons_of_mem _ hkv) m hm
      · rcases hrec : popNote rest p with _ | nd <;> rw [hrec] at hpop
        · simp at hpop
        · obtain ⟨n1, rest2⟩ := nd
          simp only [Option.some.injEq, Prod.mk.injEq] at hpop
          obtain ⟨hn, hd2⟩ := hpop
          subst hn
          subst hd2
          have hrest := ih rest2 (fun kv2 hkv2 => h kv2 (List.mem_cons_of_mem _ hkv2)) hrec
          refine ⟨hrest.1, ?_⟩
          intro kv hkv m hm
          rcases List.mem_cons.mp hkv with hkv | hkv
          · subst hkv
            exact h (k0, ns0) (List.mem_cons_self _ _) m hm
          · exact hrest.2 kv hkv m hm

/-- One loop iteration preserves the state invariant (for a positive time
scale). -/
theorem trackStep_inv (tpb : ℚ) (dv : Bool) (htpb : 0 < tpb) (s : EncState) (m : Msg)
    (s2 : EncState) (hs : StateInv s) (hstep : trackStep tpb dv s m = .ok s2) :
    StateInv s2 := by
  obtain ⟨htime, hnotes, hlines⟩ := hs
  have hd0 : 0 ≤ tickToSixteenth tpb m.time := tts_nonneg tpb htpb m.time
  simp only [trackStep] at hstep
  split_ifs at hstep with h1 h2
  · -- note-on with positive velocity: push
    cases hstep
    refine ⟨?_, ?_, ?_⟩
    · show 0 ≤ s.time + tickToSixteenth tpb m.time
      omega
    · apply pushNote_ok
      · exact bumpAll_ok _ hd0 _ hnotes
      · show 0 ≤ s.time + tickToSixteenth tpb m.time
        omega
      · show (0:ℤ) ≤ 0
        exact le_refl 0
    · exact hlines
  · -- note-off (or note-on with velocity 0): pop and route
    rcases hpop : popNote (bumpAll (tickToSixteenth tpb m.time) s.durations) m.note
      with _ | nd <;> rw [hpop] at hstep
    · cases hstep
    · obtain ⟨n, durs2⟩ := nd
      cases hstep
      have hok := popNote_ok _ _ _ _ (bumpAll_ok _ hd0 _ hnotes) hpop
      refine ⟨?_, hok.2, ?_⟩
      · show 0 ≤ s.time + tickToSixteenth tpb m.time
        omega
      · exact addToLines_inv s.lines n hlines hok.1.1 hok.1.2
  · -- ignored message type
    cases hstep
    refine ⟨?_, bumpAll_ok _ hd0 _ hnotes, hlines⟩
    show 0 ≤ s.time + tickToSixteenth tpb m.time
    omega

/-- Any property preserved by single steps is preserved by the whole loop. -/
theorem runTrack_inv (tpb : ℚ) (dv : Bool) (P : EncState → Prop)
    (hstep : ∀ s m s2, P s → trackStep tpb dv s m = .ok s2 → P s2) :
    ∀ msgs s s2, P s → runTrack tpb dv s msgs = .ok s2 → P s2 := by
  intro msgs
  induction msgs with
  | nil =>
      intro s s2 hP h
      rw [runTrack] at h
      cases h
      exact hP
  | cons m rest ih =>
      intro s s2 hP h
      rw [runTrack] at h
      rcases hst : trackStep tpb dv s m with e | s1 <;> rw [hst] at h
      · simp at h
      · exact ih s1 s2 (hstep s m s1 hP hst) h

/-- Splitting the loop at a message boundary. -/
theorem runTrack_append (tpb : ℚ) (dv : Bool) (xs ys : List Msg) (s : EncState) :
    runTrack tpb dv s (xs ++ ys) =
      match runTrack tpb dv s xs with
      | .error e => .error e
      | .ok s2 => runTrack tpb dv s2 ys := by
  induction xs generalizing s with
  | nil =>
      rw [List.nil_append]
      rfl
  | cons m rest ih =>
      rw [List.cons_append, runTrack, runTrack]
      rcases trackStep tpb dv s m with e | s1
      · rfl
      · show runTrack tpb dv s1 (rest ++ ys) =
          match runTrack tpb dv s1 rest with
          | .error e => .error e
          | .ok s2 => runTrack tpb dv s2 ys
        exact ih s1


/-! ## From the chain invariant to the spec-level properties -/

theorem chainFromTo_chain (t u : ℤ) (es : List Entry) (h : chainFromTo t es u) :
    List.Chain' (fun a b => b.start = a.endTime) es := by
  induction es generalizing t with
  | nil => simp
  | cons e es2 ih =>
      rw [List.chain'_cons']
      refine ⟨?_, ih e.endTime h.2⟩
      intro b hb
      cases es2 with
      | nil => simp at hb
      | cons e2 rest =>
          simp only [List.head?_cons, Option.mem_def, Option.some.injEq] at hb
          subst hb
          exact h.2.1

theorem chainFromTo_head (t u : ℤ) (es : List Entry) (h : chainFromTo t es u) :
    ∀ e, es.head? = some e → e.start = t := by
  intro e he
  cases es with
  | nil => simp at he
  | cons e0 rest =>
      simp only [List.head?_cons, Option.some.injEq] at he
      subst he
      exact h.1

theorem chainFromTo_le_start (es : List Entry) (t u : ℤ) (h : chainFromTo t es u)
    (hd : ∀ e ∈ es, 0 ≤ e.duration) : ∀ e ∈ es, t ≤ e.start := by
  induction es generalizing t with
  | nil => simp
  | cons e es2 ih =>
      intro e2 he2
      rcases List.mem_cons.mp he2 with he2 | he2
      · subst he2
        exact le_of_eq h.1.symm
      · have h2 := ih e.endTime h.2 (fun x hx => hd x (List.mem_cons_of_mem _ hx)) e2 he2
        have h3 : t ≤ e.endTime := by
          have h4 := hd e (List.mem_cons_self _ _)
          have h5 : e.start = t := h.1
          rw [Entry.endTime]
          omega
        omega

theorem chainFromTo_pairwise (es : List Entry) (t u : ℤ) (h : chainFromTo t es u)
    (hd : ∀ e ∈ es, 0 ≤ e.duration) :
    List.Pairwise (fun a b => a.endTime ≤ b.start) es := by
  induction es generalizing t with
  | nil => simp
  | cons e es2 ih =>
      rw [List.pairwise_cons]
      constructor
      · exact chainFromTo_le_start es2 e.endTime u h.2
          (fun x hx => hd x (List.mem_cons_of_mem _ hx))
      · exact ih e.endTime h.2 (fun x hx => hd x (List.mem_cons_of_mem _ hx))

/-! ## Rest entries synthesized by the allocator are strictly positive -/

theorem Line.new_rests (s : ℤ) : RestsOK (Line.new s) := by
  intro e he hrest
  rw [Line.new] at he
  split_ifs at he with hpos
  · simp only [List.mem_cons, List.not_mem_nil, or_false] at he
    subst he
    simp only [Entry.duration]
    omega
  · simp at he

theorem Line.push_rests (l : Line) (n : Note) (h : RestsOK l) :
    RestsOK (l.push (.note n)) := by
  intro e he hrest
  rw [Line.push] at he
  split_ifs at he with hgap
  · simp only [List.mem_append, List.mem_cons, List.not_mem_nil, or_false] at he
    rcases he with he | he | he
    · exact h e he hrest
    · subst he
      simp only [Entry.duration, Entry.start] at hgap ⊢
      omega
    · subst he
      simp [Entry.isRest] at hrest
  · simp only [List.mem_append, List.mem_cons, List.not_mem_nil, or_false] at he
    rcases he with he | he
    · exact h e he hrest
    · subst he
      simp [Entry.isRest] at hrest

theorem addToLines_rests (lines : List Line) (n : Note)
    (hl : ∀ l ∈ lines, RestsOK l) : ∀ l ∈ addToLines lines n, RestsOK l := by
  intro l hmem
  rw [addToLines] at hmem
  rcases hfa : findAvail lines n.start with _ | i <;> rw [hfa] at hmem <;> simp only at hmem
  · rcases List.mem_append.mp hmem with hmem | hmem
    · exact hl l hmem
    · simp only [List.mem_cons, List.not_mem_nil, or_false] at hmem
      subst hmem
      exact Line.push_rests _ n (Line.new_rests n.start)
  · rcases mem_modifyIdx lines i _ l hmem with hmem | ⟨hi, hl2⟩
    · exact hl l hmem
    · subst hl2
      refine Line.push_rests _ n (hl _ ?_)
      rw [List.getD_eq_get lines dummyLine hi]
      exact List.get_mem lines i hi

theorem trackStep_rests (tpb : ℚ) (dv : Bool) (s : EncState) (m : Msg) (s2 : EncState)
    (hs : ∀ l ∈ s.lines, RestsOK l) (hstep : trackStep tpb dv s m = .ok s2) :
    ∀ l ∈ s2.lines, RestsOK l := by
  simp only [trackStep] at hstep
  split_ifs at hstep with h1 h2
  · cases hstep
    exact hs
  · rcases hpop : popNote (bumpAll (tickToSixteenth tpb m.time) s.durations) m.note
      with _ | nd <;> rw [hpop] at hstep
    · cases hstep
    · obtain ⟨n, durs2⟩ := nd
      cases hstep
      exact addToLines_rests s.lines n hs
  · cases hstep
    exact hs

/-! ## Counting notes through the loop -/

theorem push_filter_note (l : Line) (n : Note) :
    ((l.push (.note n)).entries.filter Entry.isNote).length =
      (l.entries.filter Entry.isNote).length + 1 := by
  rw [Line.push]
  split_ifs with hgap <;> simp [Entry.isNote]

theorem newline_filter_note (s : ℤ) (n : Note) :
    (((Line.new s).push (.note n)).entries.filter Entry.isNote).length = 1 := by
  rw [push_filter_note]
  rw [Line.new]
  split_ifs with hpos <;> simp [Entry.isNote]

theorem modifyIdx_noteCount (lines : List Line) (i : ℕ) (n : Note) (hi : i < lines.length) :
    noteCount (modifyIdx lines i (fun l => l.push (.note n))) = noteCount lines + 1 := by
  induction lines generalizing i with
  | nil => simp at hi
  | cons l ls ih =>
      cases i with
      | zero =>
          simp only [modifyIdx, noteCount, List.map_cons, List.sum_cons]
          rw [push_filter_note]
          omega
      | succ j =>
          simp only [modifyIdx, noteCount, List.map_cons, List.sum_cons]
          have := ih j (by simpa using Nat.lt_of_succ_lt_succ hi)
          simp only [noteCount] at this
          omega

theorem addToLines_noteCount (lines : List Line) (n : Note) :
    noteCount (addToLines lines n) = noteCount lines + 1 := by
  rw [addToLines]
  rcases hfa : findAvail lines n.start with _ | i
  · simp only [noteCount, List.map_append, List.sum_append, List.map_cons, List.sum_cons,
      List.map_nil, List.sum_nil]
    rw [newline_filter_note]
    simp [noteCount]
  · exact modifyIdx_noteCount lines i n (findAvail_spec lines n.start i hfa).1

theorem bumpAll_stackCount (delta : ℤ) (durs : List (ℕ × List Note)) :
    stackCount (bumpAll delta durs) = stackCount durs := by
  induction durs with
  | nil => rfl
  | cons kv0 rest ih =>
      simp only [bumpAll, List.map_cons, stackCount, List.sum_cons, List.length_map] at ih ⊢
      omega

theorem pushNote_stackCount (durs : List (ℕ × List Note)) (p : ℕ) (n : Note) :
    stackCount (pushNote durs p n) = stackCount durs + 1 := by
  induction durs with
  | nil => simp [pushNote, stackCount]
  | cons kv0 rest ih =>
      obtain ⟨k0, ns0⟩ := kv0
      rw [pushNote]
      split_ifs with hk
      · simp [stackCount]
        omega
      · simp only [stackCount, List.map_cons, List.sum_cons] at ih ⊢
        omega

theorem popNote_stackCount (durs : List (ℕ × List Note)) (p : ℕ) (n : Note)
    (durs2 : List (ℕ × List Note)) (hpop : popNote durs p = some (n, durs2)) :
    stackCount durs = stackCount durs2 + 1 := by
  induction durs generalizing durs2 with
  | nil => simp [popNote] at hpop
  | cons kv0 rest ih =>
      obtain ⟨k0, ns0⟩ := kv0
      simp only [popNote] at hpop
      split_ifs at hpop with hk
      · cases ns0 with
        | nil => cases hpop
        | cons n0 ns2 =>
            simp only [Option.some.injEq, Prod.mk.injEq] at hpop
            obtain ⟨hn, hd2⟩ := hpop
            subst hn
            subst hd2
            simp [stackCount]
            omega
      · rcases hrec : popNote rest p with _ | nd <;> rw [hrec] at hpop
        · simp at hpop
        · obtain ⟨n1, rest2⟩ := nd
          simp only [Option.some.injEq, Prod.mk.injEq] at hpop
          obtain ⟨hn, hd2⟩ := hpop
          subst hn
          subst hd2
          have := ih rest2 hrec
          simp only [stackCount, List.map_cons, List.sum_cons] at this ⊢
          omega

/-- What one step does to the note and stack counts, by message kind. -/
theorem trackStep_counts (tpb : ℚ) (dv : Bool) (s : EncState) (m : Msg) (s2 : EncState)
    (hstep : trackStep tpb dv s m = .ok s2) :
    noteCount s2.lines = noteCount s.lines + (if isOffMsg m then 1 else 0) ∧
    stackCount s2.durations + (if isOffMsg m then 1 else 0) =
      stackCount s.durations + (if isOnMsg m then 1 else 0) := by
  simp only [trackStep] at hstep
  split_ifs at hstep with h1 h2
  · -- note-on push
    cases hstep
    have hoff : ¬ isOffMsg m := fun hc => hc.2 h2
    have hon : isOnMsg m := h2
    rw [if_neg hoff, if_pos hon]
    refine ⟨?_, ?_⟩
    · show noteCount s.lines = noteCount s.lines + 0
      omega
    · show stackCount (pushNote (bumpAll (tickToSixteenth tpb m.time) s.durations) m.note
        (Note.make m (s.time + tickToSixteenth tpb m.time) 0 dv)) + 0 = _
      rw [pushNote_stackCount, bumpAll_stackCount]
  · -- pop
    rcases hpop : popNote (bumpAll (tickToSixteenth tpb m.time) s.durations) m.note
      with _ | nd <;> rw [hpop] at hstep
    · cases hstep
    · obtain ⟨n, durs2⟩ := nd
      cases hstep
      have hoff : isOffMsg m := ⟨h1, h2⟩
      have hon : ¬ isOnMsg m := h2
      rw [if_pos hoff, if_neg hon]
      constructor
      · show noteCount (addToLines s.lines n) = _
        rw [addToLines_noteCount]
      · show stackCount durs2 + 1 = _
        have := popNote_stackCount _ _ _ _ hpop
        rw [bumpAll_stackCount] at this
        omega
  · -- ignored
    cases hstep
    have hoff : ¬ isOffMsg m := fun hc => h1 hc.1
    have hon : ¬ isOnMsg m := fun hc => h1 (Or.inl hc.1)
    rw [if_neg hoff, if_neg hon]
    refine ⟨?_, ?_⟩
    · show noteCount s.lines = noteCount s.lines + 0
      omega
    · show stackCount (bumpAll (tickToSixteenth tpb m.time) s.durations) + 0 = _
      rw [bumpAll_stackCount]

/-- Accumulated over the loop: one note entry per off event, one net stack
element per unmatched on event. -/
theorem runTrack_counts (tpb : ℚ) (dv : Bool) (msgs : List Msg) (s s2 : EncState)
    (h : runTrack tpb dv s msgs = .ok s2) :
    noteCount s2.lines = noteCount s.lines + msgs.countP (fun m => decide (isOffMsg m)) ∧
    stackCount s2.durations + msgs.countP (fun m => decide (isOffMsg m)) =
      stackCount s.durations + msgs.countP (fun m => decide (isOnMsg m)) := by
  induction msgs generalizing s with
  | nil =>
      rw [runTrack] at h
      cases h
      simp
  | cons m rest ih =>
      rw [runTrack] at h
      rcases hst : trackStep tpb dv s m with e | s1 <;> rw [hst] at h
      · simp at h
      · have hstep := trackStep_counts tpb dv s m s1 hst
        have hrest := ih s1 h
        have hc1 : (m :: rest).countP (fun m2 => decide (isOffMsg m2)) =
            rest.countP (fun m2 => decide (isOffMsg m2)) + (if isOffMsg m then 1 else 0) := by
          rw [List.countP_cons]
          by_cases hoff : isOffMsg m <;> simp [hoff]
        have hc2 : (m :: rest).countP (fun m2 => decide (isOnMsg m2)) =
            rest.countP (fun m2 => decide (isOnMsg m2)) + (if isOnMsg m then 1 else 0) := by
          rw [List.countP_cons]
          by_cases hon : isOnMsg m <;> simp [hon]
        rw [hc1, hc2]
        clear hc1 hc2
        obtain ⟨hs1, hs2⟩ := hstep
        obtain ⟨hr1, hr2⟩ := hrest
        by_cases hoff : isOffMsg m
        · by_cases hon : isOnMsg m
          · rw [if_pos hoff] at hs1 hs2 ⊢
            rw [if_pos hon] at hs2 ⊢
            omega
          · rw [if_pos hoff] at hs1 hs2 ⊢
            rw [if_neg hon] at hs2 ⊢
            omega
        · by_cases hon : isOnMsg m
          · rw [if_neg hoff] at hs1 hs2 ⊢
            rw [if_pos hon] at hs2 ⊢
            omega
          · rw [if_neg hoff] at hs1 hs2 ⊢
            rw [if_neg hon] at hs2 ⊢
            omega

/-! ## The empty-stack condition and the pop that fails -/

theorem popNote_none_of_empty (durs : List (ℕ × List Note)) (p : ℕ)
    (h : stackOfD durs p = []) : popNote durs p = none := by
  induction durs with
  | nil => rfl
  | cons kv0 rest ih =>
      obtain ⟨k0, ns0⟩ := kv0
      by_cases hk : k0 = p
      · have h2 : ns0 = [] := by
          rw [stackOfD] at h
          simp only [List.find?, hk, decide_True, Option.map_some, Option.getD_some] at h
          exact h
        subst hk
        subst h2
        simp [popNote]
      · have h2 : stackOfD rest p = [] := by
          rw [stackOfD] at h ⊢
          simp only [List.find?, hk, decide_False] at h
          exact h
        simp only [popNote, if_neg hk]
        rw [ih h2]

theorem stackOfD_bumpAll (delta : ℤ) (durs : List (ℕ × List Note)) (p : ℕ)
    (h : stackOfD durs p = []) : stackOfD (bumpAll delta durs) p = [] := by
  induction durs with
  | nil => rfl
  | cons kv0 rest ih =>
      obtain ⟨k0, ns0⟩ := kv0
      by_cases hk : k0 = p
      · have h2 : ns0 = [] := by
          rw [stackOfD] at h
          simp only [List.find?, hk, decide_True, Option.map_some, Option.getD_some] at h
          exact h
        subst h2
        rw [stackOfD]
        simp only [bumpAll, List.map_cons, List.map_nil, List.find?, hk, decide_True]
        rfl
      · have h2 : stackOfD rest p = [] := by
          rw [stackOfD] at h
          simp only [List.find?, hk, decide_False] at h
          exact h
        have h3 := ih h2
        rw [stackOfD, bumpAll] at h3 ⊢
        simp only [List.map_cons, List.find?, hk, decide_False]
        exact h3

theorem popNote_bump_none (delta : ℤ) (durs : List (ℕ × List Note)) (p : ℕ)
    (h : stackOfD durs p = []) : popNote (bumpAll delta durs) p = none :=
  popNote_none_of_empty _ _ (stackOfD_bumpAll delta durs p h)


/-- The assertion case: any duration below one sixteenth makes the
decomposition fail. -/
theorem gls_low (pitch : String) (d : ℤ) (hd : d < 1) :
    getLengthStr pitch d =
      .error ("Error: Note duration was less than a sixteenth note. (" ++ toString d ++ ")") := by
  rw [getLengthStr, if_pos hd]

/-! ## The claims -/

/-- C1: the claim that every key of the canonical table maps to its own token
with no tie separator FAILS at key 4: the quarter-note token is the empty
string, `if not result:` treats it like a missing key, and the code
decomposes 4 as a dotted eighth tied to a sixteenth.  All other eight keys
return their table token.  This evaluates the code at the failing input. -/
theorem c1_key4_decomposes :
    getLengthStr "C" 4 = .ok "8.&C16" ∧
    getLengthStr "C" 1 = .ok "16" ∧ getLengthStr "C" 2 = .ok "8" ∧
    getLengthStr "C" 3 = .ok "8." ∧ getLengthStr "C" 6 = .ok "4." ∧
    getLengthStr "C" 8 = .ok "2" ∧ getLengthStr "C" 12 = .ok "2." ∧
    getLengthStr "C" 16 = .ok "1" ∧ getLengthStr "C" 24 = .ok "1." := by
  refine ⟨?_, ?_, ?_, ?_, ?_, ?_, ?_, ?_, ?_⟩
  · rw [gls_four]
    rfl
  all_goals exact gls_exact "C" _ _ (by decide) (by decide) (by decide)

/-- C3: a note-off (or note-on with velocity 0) for a pitch whose stack of
in-progress notes is empty aborts the whole conversion with the
pop-from-empty error (the condition the design calls `MalformedEventStream`),
so no output document is produced. -/
theorem c3_stray_off_fails (tpb : ℚ) (dv : Bool) (pre post : List Msg) (m : Msg)
    (s : EncState) (hpre : runTrack tpb dv initState pre = .ok s)
    (hoff : isOffMsg m) (hempty : stackOf s m.note = []) :
    Track.encode tpb dv (pre ++ m :: post) = .error "IndexError: pop from empty list" := by
  have hstep : trackStep tpb dv s m = .error "IndexError: pop from empty list" := by
    simp only [trackStep]
    rw [if_pos hoff.1, if_neg hoff.2,
      popNote_bump_none (tickToSixteenth tpb m.time) s.durations m.note hempty]
  have hrun2 : runTrack tpb dv s (m :: post) = .error "IndexError: pop from empty list" := by
    rw [runTrack, hstep]
  rw [Track.encode, runTrack_append, hpre]
  show (match runTrack tpb dv s (m :: post) with
    | Except.error e => Except.error e
    | Except.ok st =>
        match encodeLines st.lines with
        | Except.error e => Except.error e
        | Except.ok strs => Except.ok (String.intercalate "," strs)) =
    Except.error "IndexError: pop from empty list"
  rw [hrun2]

/-- C3 witness: an immediate stray note-off on pitch 60. -/
theorem c3_witness :
    runTrack 480 false initState [] = .ok initState ∧
    isOffMsg ⟨.note_off, 60, 64, 0⟩ ∧
    stackOf initState 60 = [] ∧
    Track.encode 480 false ([] ++ ⟨.note_off, 60, 64, 0⟩ :: []) =
      .error "IndexError: pop from empty list" :=
  ⟨rfl, by constructor <;> simp, rfl,
    c3_stray_off_fails 480 false [] [] ⟨.note_off, 60, 64, 0⟩ initState rfl
      (by constructor <;> simp) rfl⟩

/-- C4: for every duration d ≥ 1 the decomposition succeeds (terminates with
a rendered token string), and the table keys of the segments it emits sum to
exactly d. -/
theorem c4_decomposition_sum (pitch : String) (d : ℤ) (hd : 1 ≤ d) :
    getLengthStr pitch d = .ok (renderKeys pitch (lengthKeys d)) ∧
    (lengthKeys d).sum = d :=
  ⟨gls_renders pitch d hd, lengthKeys_sum d hd⟩

/-- C4 witness at d = 7 (= 6 + 1, a tied dotted-quarter + sixteenth). -/
theorem c4_witness :
    (1:ℤ) ≤ 7 ∧
    (getLengthStr "D" 7 = .ok (renderKeys "D" (lengthKeys 7)) ∧ (lengthKeys 7).sum = 7) :=
  ⟨by decide, c4_decomposition_sum "D" 7 (by decide)⟩

/-- C5 counterexample: a `Rest` of duration 0 does NOT encode to the empty
string.  `Rest.encode` has no zero-duration guard, so it calls the length
decomposition, which fails its `duration >= 1` assertion. -/
theorem c5_rest_zero_counterexample :
    (Entry.rest 0 0).encode =
      .error ("Error: Note duration was less than a sixteenth note. (" ++ toString (0:ℤ) ++ ")") ∧
    ∀ s, (Entry.rest 0 0).encode ≠ .ok s := by
  have h : (Entry.rest 0 0).encode =
      .error ("Error: Note duration was less than a sixteenth note. (" ++ toString (0:ℤ) ++ ")") := by
    simp only [Entry.encode]
    rw [gls_low "R" 0 (by decide)]
  refine ⟨h, ?_⟩
  intro s hs
  rw [h] at hs
  cases hs

/-- C5 amended: a `Note` with duration 0 encodes to the empty string
(silently dropped); a `Rest` with duration 0 instead fails the assertion. -/
theorem c5_note_zero_drops (n : Note) (st : ℤ) (hn : n.duration = 0) :
    n.encode = .ok "" ∧ ∀ s, (Entry.rest st 0).encode ≠ .ok s := by
  constructor
  · rw [Note.encode, if_pos (by omega)]
  · intro s hs
    simp only [Entry.encode] at hs
    rw [gls_low "R" 0 (by decide)] at hs
    cases hs

/-- C5 witness: a concrete zero-duration note is dropped while a concrete
zero-duration rest fails. -/
theorem c5_witness :
    (Note.make ⟨.note_on, 60, 100, 0⟩ 5 0 false).duration = 0 ∧
    ((Note.make ⟨.note_on, 60, 100, 0⟩ 5 0 false).encode = .ok "" ∧
      ∀ s, (Entry.rest 3 0).encode ≠ .ok s) :=
  ⟨rfl, c5_note_zero_drops (Note.make ⟨.note_on, 60, 100, 0⟩ 5 0 false) 3 rfl⟩

/-- C6: in every line produced by a completed encoding run (with a positive
time scale), consecutive entries are contiguous (each entry starts where the
previous one ends), the first entry starts at time 0, and no two entries of
the same line overlap. -/
theorem c6_line_invariants (tpb : ℚ) (dv : Bool) (msgs : List Msg) (s : EncState)
    (htpb : 0 < tpb) (hrun : runTrack tpb dv initState msgs = .ok s) :
    ∀ l ∈ s.lines,
      List.Chain' (fun a b => b.start = a.endTime) l.entries ∧
      (∀ e, l.entries.head? = some e → e.start = 0) ∧
      List.Pairwise (fun a b => a.endTime ≤ b.start) l.entries := by
  have hinv : StateInv s := by
    refine runTrack_inv tpb dv StateInv
      (fun s1 m s2 h1 h2 => trackStep_inv tpb dv htpb s1 m s2 h1 h2) msgs initState s
      ⟨le_refl 0, ?_, ?_⟩ hrun
    · intro kv hkv
      cases hkv
    · intro l hl
      cases hl
  intro l hl
  obtain ⟨hchain, hdur⟩ := hinv.2.2 l hl
  exact ⟨chainFromTo_chain 0 l.lineEnd l.entries hchain,
    chainFromTo_head 0 l.lineEnd l.entries hchain,
    chainFromTo_pairwise l.entries 0 l.lineEnd hchain hdur⟩

/-- C7: the score encoding is the header, a tempo tag exactly when the tempo
differs from 120, the comma-joined line encodings, and the terminator. -/
theorem c7_score_format (tempo : ℤ) (tpbeat : ℕ) (sm : ℚ) (dv : Bool) (msgs : List Msg)
    (s : EncState) (strs : List String)
    (hrun : runTrack ((tpbeat : ℚ) * sm) dv initState msgs = .ok s)
    (henc : encodeLines s.lines = .ok strs) :
    Midi.encode tempo tpbeat sm dv msgs =
      .ok ("7ML@" ++ (if tempo = 120 then "" else "T" ++ toString tempo)
        ++ String.intercalate "," strs ++ ";") := by
  have htrack : Track.encode ((tpbeat : ℚ) * sm) dv msgs =
      .ok (String.intercalate "," strs) := by
    rw [Track.encode, hrun]
    show (match encodeLines s.lines with
      | Except.error e => Except.error e
      | Except.ok strs2 => Except.ok (String.intercalate "," strs2)) =
      Except.ok (String.intercalate "," strs)
    rw [henc]
  rw [Midi.encode, htrack]
  show Except.ok ("7ML@" ++ (if tempo ≠ 120 then "T" ++ toString tempo else "")
      ++ String.intercalate "," strs ++ ";") = _
  by_cases ht : tempo = 120
  · rw [if_neg (fun hc => hc ht), if_pos ht]
  · rw [if_pos ht, if_neg ht]

/-- C7 witness: an empty track with a non-default tempo. -/
theorem c7_witness :
    runTrack ((480:ℕ) * (1:ℚ)) false initState [] = .ok initState ∧
    encodeLines initState.lines = .ok [] ∧
    Midi.encode 90 480 1 false [] =
      .ok ("7ML@" ++ (if (90:ℤ) = 120 then "" else "T" ++ toString (90:ℤ))
        ++ String.intercalate "," [] ++ ";") :=
  ⟨rfl, rfl, c7_score_format 90 480 1 false [] initState [] rfl rfl⟩

/-- C8: any duration below 1 makes the decomposition fail with the assertion
error: it is never clamped and no token is ever returned for it. -/
theorem c8_assert_low_duration (pitch : String) (d : ℤ) (hd : d < 1) :
    getLengthStr pitch d =
      .error ("Error: Note duration was less than a sixteenth note. (" ++ toString d ++ ")") ∧
    ∀ s, getLengthStr pitch d ≠ .ok s := by
  have h := gls_low pitch d hd
  refine ⟨h, ?_⟩
  intro s hs
  rw [h] at hs
  cases hs

/-- C8 witness at duration 0. -/
theorem c8_witness :
    (0:ℤ) < 1 ∧
    (getLengthStr "C" 0 =
      .error ("Error: Note duration was less than a sixteenth note. (" ++ toString (0:ℤ) ++ ")") ∧
    ∀ s, getLengthStr "C" 0 ≠ .ok s) :=
  ⟨by decide, c8_assert_low_duration "C" 0 (by decide)⟩

/-- C9: notes still open when the stream ends are silently discarded.  The
lines hold exactly one note entry per note-off event; the notes opened by the
remaining note-on events sit in the per-pitch stacks and never reach a line;
and the output text is built from the lines alone. -/
theorem c9_unmatched_notes_dropped (tpb : ℚ) (dv : Bool) (msgs : List Msg) (s : EncState)
    (hrun : runTrack tpb dv initState msgs = .ok s) :
    noteCount s.lines = msgs.countP (fun m => decide (isOffMsg m)) ∧
    noteCount s.lines + stackCount s.durations =
      msgs.countP (fun m => decide (isOnMsg m)) ∧
    ∀ strs, encodeLines s.lines = .ok strs →
      Track.encode tpb dv msgs = .ok (String.intercalate "," strs) := by
  have h := runTrack_counts tpb dv msgs initState s hrun
  have h0 : noteCount initState.lines = 0 := rfl
  have h1 : stackCount initState.durations = 0 := rfl
  obtain ⟨ha, hb⟩ := h
  refine ⟨by omega, by omega, ?_⟩
  intro strs henc
  rw [Track.encode, hrun]
  show (match encodeLines s.lines with
    | Except.error e => Except.error e
    | Except.ok strs2 => Except.ok (String.intercalate "," strs2)) =
    Except.ok (String.intercalate "," strs)
  rw [henc]

/-- C10: every rest the allocator synthesizes (leading rests of lines that
start late, and gap-filling rests) has duration ≥ 1, and therefore its
encoding succeeds — the `duration < 1` assertion is unreachable for rests. -/
theorem c10_rests_positive (tpb : ℚ) (dv : Bool) (msgs : List Msg) (s : EncState)
    (hrun : runTrack tpb dv initState msgs = .ok s) :
    ∀ l ∈ s.lines, ∀ e ∈ l.entries, e.isRest = true →
      1 ≤ e.duration ∧ ∃ str, e.encode = .ok str := by
  have hrests : ∀ l ∈ s.lines, RestsOK l := by
    refine runTrack_inv tpb dv (fun st => ∀ l ∈ st.lines, RestsOK l)
      (fun s1 m s2 h1 h2 => trackStep_rests tpb dv s1 m s2 h1 h2) msgs initState s ?_ hrun
    intro l hl
    cases hl
  intro l hl e he hrest
  have hd := hrests l hl e he hrest
  refine ⟨hd, ?_⟩
  cases e with
  | note n => simp [Entry.isRest] at hrest
  | rest st d =>
      obtain ⟨str, hstr⟩ := gls_ok "R" d (by simpa [Entry.duration] using hd)
      refine ⟨"R" ++ str, ?_⟩
      simp only [Entry.encode]
      rw [hstr]


/-! ## Concrete evaluations for the end-to-end scenarios -/

/-- One tick at one tick per beat is a quarter note: 4 sixteenths. -/
theorem tts_one : tickToSixteenth 1 1 = 4 := by
  rw [tickToSixteenth, roundHalfEven]
  norm_num

/-- MIDI velocity 64 scales to bucket 8 exactly. -/
theorem vel64 : roundHalfEven ((64 : ℚ) * (16/128)) = 8 := by
  rw [roundHalfEven]
  norm_num

/-- The loop on the single-note-one-beat stream of scenario A. -/
theorem run_c2_eval :
    runTrack 480 false initState [⟨.note_on, 60, 100, 0⟩, ⟨.note_off, 60, 0, 480⟩] =
      .ok ⟨4, [(60, [])], [⟨0, 4, [.note ⟨60, "C", 4, 0, 4, 12⟩]⟩]⟩ := by
  simp [runTrack, trackStep, tts_zero, tts_beat, bumpAll, pushNote, popNote, addToLines,
    findAvail, modifyIdx, Line.new, Line.push, Note.make, PITCHES, vel100, Entry.start,
    Entry.duration, Line.lineEnd, initState, List.getD]

/-- The note of scenario A: velocity bucket 12 emits no prefix, and duration
4 decomposes into the tied pair. -/
theorem note_c2_eval : Note.encode ⟨60, "C", 4, 0, 4, 12⟩ = .ok "O4C8.&C16" := by
  rw [Note.encode, if_neg (by decide), gls_four]
  rfl

/-- The full document of scenario A as the code actually produces it. -/
theorem midi_c2_eval :
    Midi.encode 120 480 1 false [⟨.note_on, 60, 100, 0⟩, ⟨.note_off, 60, 0, 480⟩] =
      .ok "7ML@O4C8.&C16;" := by
  have hc : ((480:ℕ):ℚ) * 1 = 480 := by norm_num
  simp only [Midi.encode, hc, Track.encode, run_c2_eval, encodeLines, Line.encode,
    encodeEntries, Entry.encode, note_c2_eval, String.join, List.foldl]
  rfl

/-- C2 counterexample: the claimed document `7ML@V13O4C;` is NOT produced for
scenario A.  Python's `round` is round-half-to-even, so `round(100*16/128) =
round(12.5) = 12` (not 13) and no velocity prefix is emitted; and the
duration-4 token decomposes (see C1), so the document is `7ML@O4C8.&C16;`. -/
theorem c2_counterexample :
    Midi.encode 120 480 1 false [⟨.note_on, 60, 100, 0⟩, ⟨.note_off, 60, 0, 480⟩] ≠
      .ok "7ML@V13O4C;" ∧
    roundHalfEven ((100 : ℚ) * (16/128)) = 12 :=
  ⟨by
    rw [midi_c2_eval]
    intro hc
    injection hc with h
    exact absurd h (by decide), vel100⟩

/-- C2 amended: for the single note with pitch 60, velocity 100, start tick
0, duration one beat at 480 ticks per beat, speed 1, tempo 120 and velocity
encoding enabled, the quantized duration is 4 sixteenths, the velocity
bucket is 12 (so no velocity prefix), the note token is `O4C8.&C16`, and the
document is `7ML@O4C8.&C16;`. -/
theorem c2_single_note_beat :
    tickToSixteenth 480 480 = 4 ∧
    roundHalfEven ((100 : ℚ) * (16/128)) = 12 ∧
    Note.encode ⟨60, "C", 4, 0, 4, 12⟩ = .ok "O4C8.&C16" ∧
    Midi.encode 120 480 1 false [⟨.note_on, 60, 100, 0⟩, ⟨.note_off, 60, 0, 480⟩] =
      .ok "7ML@O4C8.&C16;" :=
  ⟨tts_beat, vel100, note_c2_eval, midi_c2_eval⟩

/-- The loop on the C6 witness stream (both events at time 0). -/
theorem run_c6_eval :
    runTrack 480 false initState [⟨.note_on, 60, 100, 0⟩, ⟨.note_off, 60, 0, 0⟩] =
      .ok ⟨0, [(60, [])], [⟨0, 0, [.note ⟨60, "C", 4, 0, 0, 12⟩]⟩]⟩ := by
  simp [runTrack, trackStep, tts_zero, bumpAll, pushNote, popNote, addToLines, findAvail,
    modifyIdx, Line.new, Line.push, Note.make, PITCHES, vel100, Entry.start, Entry.duration,
    Line.lineEnd, initState, List.getD]

/-- C6 witness: the line invariants on a concrete completed run. -/
theorem c6_witness :
    (0:ℚ) < 480 ∧
    runTrack 480 false initState [⟨.note_on, 60, 100, 0⟩, ⟨.note_off, 60, 0, 0⟩] =
      .ok ⟨0, [(60, [])], [⟨0, 0, [.note ⟨60, "C", 4, 0, 0, 12⟩]⟩]⟩ ∧
    ∀ l ∈ (⟨0, [(60, [])], [⟨0, 0, [.note ⟨60, "C", 4, 0, 0, 12⟩]⟩]⟩ : EncState).lines,
      List.Chain' (fun a b => b.start = a.endTime) l.entries ∧
      (∀ e, l.entries.head? = some e → e.start = 0) ∧
      List.Pairwise (fun a b => a.endTime ≤ b.start) l.entries :=
  ⟨by norm_num, run_c6_eval,
    c6_line_invariants 480 false [⟨.note_on, 60, 100, 0⟩, ⟨.note_off, 60, 0, 0⟩]
      ⟨0, [(60, [])], [⟨0, 0, [.note ⟨60, "C", 4, 0, 0, 12⟩]⟩]⟩ (by norm_num) run_c6_eval⟩

/-- The loop on the C9 witness stream: two note-ons, one note-off — the
note on pitch 62 is never closed. -/
theorem run_c9_eval :
    runTrack 480 false initState
      [⟨.note_on, 60, 100, 0⟩, ⟨.note_on, 62, 100, 0⟩, ⟨.note_off, 60, 0, 0⟩] =
      .ok ⟨0, [(60, []), (62, [⟨62, "D", 4, 0, 0, 12⟩])],
        [⟨0, 0, [.note ⟨60, "C", 4, 0, 0, 12⟩]⟩]⟩ := by
  simp [runTrack, trackStep, tts_zero, bumpAll, pushNote, popNote, addToLines, findAvail,
    modifyIdx, Line.new, Line.push, Note.make, PITCHES, vel100, Entry.start, Entry.duration,
    Line.lineEnd, initState, List.getD]

/-- C9 witness: the unmatched note-on for pitch 62 stays in the stacks (one
element) while the lines hold exactly the single closed note. -/
theorem c9_witness :
    runTrack 480 false initState
      [⟨.note_on, 60, 100, 0⟩, ⟨.note_on, 62, 100, 0⟩, ⟨.note_off, 60, 0, 0⟩] =
      .ok ⟨0, [(60, []), (62, [⟨62, "D", 4, 0, 0, 12⟩])],
        [⟨0, 0, [.note ⟨60, "C", 4, 0, 0, 12⟩]⟩]⟩ ∧
    noteCount [⟨0, 0, [.note ⟨60, "C", 4, 0, 0, 12⟩]⟩] = 1 ∧
    stackCount [(60, []), (62, [⟨62, "D", 4, 0, 0, 12⟩])] = 1 ∧
    (noteCount (⟨0, [(60, []), (62, [⟨62, "D", 4, 0, 0, 12⟩])],
        [⟨0, 0, [.note ⟨60, "C", 4, 0, 0, 12⟩]⟩]⟩ : EncState).lines =
      ([⟨.note_on, 60, 100, 0⟩, ⟨.note_on, 62, 100, 0⟩, ⟨.note_off, 60, 0, 0⟩] :
        List Msg).countP (fun m => decide (isOffMsg m)) ∧
    noteCount (⟨0, [(60, []), (62, [⟨62, "D", 4, 0, 0, 12⟩])],
        [⟨0, 0, [.note ⟨60, "C", 4, 0, 0, 12⟩]⟩]⟩ : EncState).lines +
      stackCount (⟨0, [(60, []), (62, [⟨62, "D", 4, 0, 0, 12⟩])],
        [⟨0, 0, [.note ⟨60, "C", 4, 0, 0, 12⟩]⟩]⟩ : EncState).durations =
      ([⟨.note_on, 60, 100, 0⟩, ⟨.note_on, 62, 100, 0⟩, ⟨.note_off, 60, 0, 0⟩] :
        List Msg).countP (fun m => decide (isOnMsg m)) ∧
    ∀ strs, encodeLines (⟨0, [(60, []), (62, [⟨62, "D", 4, 0, 0, 12⟩])],
        [⟨0, 0, [.note ⟨60, "C", 4, 0, 0, 12⟩]⟩]⟩ : EncState).lines = .ok strs →
      Track.encode 480 false
        [⟨.note_on, 60, 100, 0⟩, ⟨.note_on, 62, 100, 0⟩, ⟨.note_off, 60, 0, 0⟩] =
        .ok (String.intercalate "," strs)) :=
  ⟨run_c9_eval, rfl, rfl,
    c9_unmatched_notes_dropped 480 false
      [⟨.note_on, 60, 100, 0⟩, ⟨.note_on, 62, 100, 0⟩, ⟨.note_off, 60, 0, 0⟩]
      ⟨0, [(60, []), (62, [⟨62, "D", 4, 0, 0, 12⟩])],
        [⟨0, 0, [.note ⟨60, "C", 4, 0, 0, 12⟩]⟩]⟩ run_c9_eval⟩

/-- The loop on the C10 witness stream: the note starts one beat in, so the
new line is seeded with a leading rest covering `[0, 4)`. -/
theorem run_c10_eval :
    runTrack 1 false initState [⟨.note_on, 60, 64, 1⟩, ⟨.note_off, 60, 0, 1⟩] =
      .ok ⟨8, [(60, [])], [⟨4, 4, [.rest 0 4, .note ⟨60, "C", 4, 4, 4, 8⟩]⟩]⟩ := by
  simp [runTrack, trackStep, tts_one, bumpAll, pushNote, popNote, addToLines, findAvail,
    modifyIdx, Line.new, Line.push, Note.make, PITCHES, vel64, Entry.start, Entry.duration,
    Line.lineEnd, initState, List.getD]

/-- C10 witness: the synthesized leading rest has duration 4 ≥ 1 and its
encoding succeeds. -/
theorem c10_witness :
    runTrack 1 false initState [⟨.note_on, 60, 64, 1⟩, ⟨.note_off, 60, 0, 1⟩] =
      .ok ⟨8, [(60, [])], [⟨4, 4, [.rest 0 4, .note ⟨60, "C", 4, 4, 4, 8⟩]⟩]⟩ ∧
    ∀ l ∈ (⟨8, [(60, [])],
        [⟨4, 4, [.rest 0 4, .note ⟨60, "C", 4, 4, 4, 8⟩]⟩]⟩ : EncState).lines,
      ∀ e ∈ l.entries, e.isRest = true → 1 ≤ e.duration ∧ ∃ str, e.encode = .ok str :=
  ⟨run_c10_eval,
    c10_rests_positive 1 false [⟨.note_on, 60, 64, 1⟩, ⟨.note_off, 60, 0, 1⟩]
      ⟨8, [(60, [])], [⟨4, 4, [.rest 0 4, .note ⟨60, "C", 4, 4, 4, 8⟩]⟩]⟩ run_c10_eval⟩

end SevenDS
